import Mathlib

/-!
Shallow embedding of `src/binary_tree.rs` from `andreaskrath/data-structures-rs`.

`Option<Box<Node<T>>>` is embedded as the inductive `NTree` (`nil` for `None`,
`node` for a boxed `Node`).  The generic bound `T: PartialOrd` is embedded by
passing the comparison explicitly: `cmp : α → α → Option Ordering` plays the
role of `PartialOrd::partial_cmp`, with `none` standing for an incomparable
pair (a NaN-like comparison).  A Rust panic (the `unwrap` on a failed
comparison) is embedded as `Except.error` carrying the state of the tree at
the moment the panic is raised, so that "a failed insert leaves the tree
unchanged" is a provable statement rather than a modelling artifact.
-/

set_option linter.unusedVariables false
set_option linter.unreachableTactic false
set_option linter.unusedTactic false
set_option linter.unnecessarySeqFocus false

namespace DS

/-- `Option<Box<Node<T>>>`: `nil` is `None`; `node value left right` is a
`Node { value, left, right }`. -/
inductive NTree (α : Type) : Type where
  | nil : NTree α
  | node (value : α) (left right : NTree α) : NTree α
deriving DecidableEq

namespace NTree

/-- Number of nodes reachable from this subtree. -/
def size {α : Type} : NTree α → Nat
  | .nil => 0
  | .node _ l r => 1 + size l + size r

/-- Number of nodes on the longest root-to-leaf path (`0` for the empty
tree, `1` for a lone root). -/
def realHeight {α : Type} : NTree α → Nat
  | .nil => 0
  | .node _ l r => 1 + max (realHeight l) (realHeight r)

/-- Preorder listing: node value, then the left subtree, then the right. -/
def preorder {α : Type} : NTree α → List α
  | .nil => []
  | .node x l r => x :: (preorder l ++ preorder r)

/-- `p` holds at every value stored in the subtree. -/
def Every {α : Type} (p : α → Prop) : NTree α → Prop
  | .nil => True
  | .node x l r => p x ∧ Every p l ∧ Every p r

/-- The BST ordering invariant: at every node, all values of the left
subtree are strictly smaller and all values of the right subtree are
strictly larger than the node's value. -/
def Ordered {α : Type} [LinearOrder α] : NTree α → Prop
  | .nil => True
  | .node x l r =>
      Every (fun y => y < x) l ∧ Every (fun y => x < y) r ∧ Ordered l ∧ Ordered r

end NTree

/-- `BinaryTree<T>`: root pointer plus the cached `count` and `height`. -/
structure BinaryTree (α : Type) where
  root : NTree α
  count : Nat
  height : Nat
deriving DecidableEq

/-- `BinaryTree::new()`. -/
def BinaryTree.new {α : Type} : BinaryTree α := ⟨.nil, 0, 0⟩

/-- Outcome of the `loop` inside `BinaryTree::insert`:
`panic s` is the `unwrap` panic on an incomparable pair, carrying the state
`s` of the walked subtree at the moment of the panic; `dup` is the early
`return` on an equal comparison; `attached s lvl` is a successful attach,
returning the updated subtree and the level recorded for the new leaf. -/
inductive InsRes (α : Type) : Type where
  | panic (state : NTree α) : InsRes α
  | dup : InsRes α
  | attached (tree : NTree α) (lvl : Nat) : InsRes α
deriving DecidableEq

/-- The `loop` of `BinaryTree::insert`, at the current (non-empty) subtree;
`lvl` is the level a child attached to the current node would have (`2` on
entry at the root, incremented on every descent).  The `nil` case is junk:
the Rust loop is only ever entered on a present node, and `insert` below
never calls it on `nil`.  The four `match (root.left(), root.right())` arms
of the source appear in the same order. -/
def insertGo {α : Type} (cmp : α → α → Option Ordering) (v : α) :
    NTree α → Nat → InsRes α
  | .nil, _ => .dup
  | .node x .nil .nil, lvl =>
    match cmp v x with
    | none => .panic (.node x .nil .nil)
    | some .eq => .dup
    | some .lt => .attached (.node x (.node v .nil .nil) .nil) lvl
    | some .gt => .attached (.node x .nil (.node v .nil .nil)) lvl
  | .node x .nil (.node rx rl rr), lvl =>
    match cmp v x with
    | none => .panic (.node x .nil (.node rx rl rr))
    | some .eq => .dup
    | some .lt => .attached (.node x (.node v .nil .nil) (.node rx rl rr)) lvl
    | some .gt =>
      match insertGo cmp v (.node rx rl rr) (lvl + 1) with
      | .panic s => .panic (.node x .nil s)
      | .dup => .dup
      | .attached s lvl2 => .attached (.node x .nil s) lvl2
  | .node x (.node lx ll lr) .nil, lvl =>
    match cmp v x with
    | none => .panic (.node x (.node lx ll lr) .nil)
    | some .eq => .dup
    | some .lt =>
      match insertGo cmp v (.node lx ll lr) (lvl + 1) with
      | .panic s => .panic (.node x s .nil)
      | .dup => .dup
      | .attached s lvl2 => .attached (.node x s .nil) lvl2
    | some .gt => .attached (.node x (.node lx ll lr) (.node v .nil .nil)) lvl
  | .node x (.node lx ll lr) (.node rx rl rr), lvl =>
    match cmp v x with
    | none => .panic (.node x (.node lx ll lr) (.node rx rl rr))
    | some .eq => .dup
    | some .lt =>
      match insertGo cmp v (.node lx ll lr) (lvl + 1) with
      | .panic s => .panic (.node x s (.node rx rl rr))
      | .dup => .dup
      | .attached s lvl2 => .attached (.node x s (.node rx rl rr)) lvl2
    | some .gt =>
      match insertGo cmp v (.node rx rl rr) (lvl + 1) with
      | .panic s => .panic (.node x (.node lx ll lr) s)
      | .dup => .dup
      | .attached s lvl2 => .attached (.node x (.node lx ll lr) s) lvl2

/-- `BinaryTree::insert`.  `Except.error t` models the panic on an
incomparable comparison, carrying the full tree state at panic time;
`Except.ok t` is a normal return. -/
def BinaryTree.insert {α : Type} (cmp : α → α → Option Ordering)
    (t : BinaryTree α) (v : α) : Except (BinaryTree α) (BinaryTree α) :=
  match t.root with
  | .node x l r =>
    match insertGo cmp v (.node x l r) 2 with
    | .panic s => .error ⟨s, t.count, t.height⟩
    | .dup => .ok t
    | .attached s lvl => .ok ⟨s, t.count + 1, max t.height lvl⟩
  | .nil =>
    match cmp v v with
    | none => .error t
    | some _ => .ok ⟨.node v .nil .nil, 1, 1⟩

/-- `BinaryTree::is_empty`. -/
def BinaryTree.isEmpty {α : Type} (t : BinaryTree α) : Bool :=
  match t.root with
  | .nil => true
  | .node _ _ _ => false

/-- The `loop` of `BinaryTree::contains`; the `nil` case covers both the
empty-tree fallthrough and the `break` on a missing child slot, which both
reach the final `false`. -/
def containsGo {α : Type} (cmp : α → α → Option Ordering) (target : α) :
    NTree α → Option Bool
  | .nil => some false
  | .node x l r =>
    match cmp target x with
    | none => none
    | some .eq => some true
    | some .lt => containsGo cmp target l
    | some .gt => containsGo cmp target r

/-- `BinaryTree::contains`; `none` models the `unwrap` panic. -/
def BinaryTree.contains {α : Type} (cmp : α → α → Option Ordering)
    (t : BinaryTree α) (target : α) : Option Bool :=
  containsGo cmp target t.root

/-- The `loop` of `BinaryTree::min`: `x` is the current node's value and the
first argument of the recursion is its left child. -/
def minGo {α : Type} (x : α) : NTree α → α
  | .nil => x
  | .node lx ll _ => minGo lx ll

/-- `BinaryTree::min`. -/
def BinaryTree.min {α : Type} (t : BinaryTree α) : Option α :=
  match t.root with
  | .nil => none
  | .node x l _ => some (minGo x l)

/-- The `loop` of `BinaryTree::max`: `x` is the current node's value and the
first argument of the recursion is its right child. -/
def maxGo {α : Type} (x : α) : NTree α → α
  | .nil => x
  | .node rx _ rr => maxGo rx rr

/-- `BinaryTree::max`. -/
def BinaryTree.max {α : Type} (t : BinaryTree α) : Option α :=
  match t.root with
  | .nil => none
  | .node x _ r => some (maxGo x r)

/-- One `if let Some(child) = ... { queue.push_front(child) }` step of the
traversal in the two `IntoIterator` impls: a present child is pushed on the
front of the work stack, an absent one is skipped.  Stack entries are the
fields of a `Box<Node<T>>` (which is never absent). -/
def pushOpt {α : Type} (n : NTree α) (stack : List (α × NTree α × NTree α)) :
    List (α × NTree α × NTree α) :=
  match n with
  | .nil => stack
  | .node x l r => (x, l, r) :: stack

/-- Total number of nodes reachable from a traversal stack (termination
measure for `toListGo`). -/
def stackSize {α : Type} : List (α × NTree α × NTree α) → Nat
  | [] => 0
  | (_, l, r) :: rest => 1 + l.size + r.size + stackSize rest

theorem stackSize_pushOpt {α : Type} (n : NTree α)
    (s : List (α × NTree α × NTree α)) :
    stackSize (pushOpt n s) ≤ n.size + stackSize s := by
  cases n <;> simp only [pushOpt, stackSize, NTree.size] <;> omega

/-- The `while let Some(node) = queue.pop_front()` loop shared by the two
`IntoIterator` impls: pop a node, record its value, push its right child and
then its left child (so the left child is expanded first). -/
def toListGo {α : Type} : List (α × NTree α × NTree α) → List α
  | [] => []
  | (x, l, r) :: rest => x :: toListGo (pushOpt l (pushOpt r rest))
termination_by s => stackSize s
decreasing_by
  have h1 := stackSize_pushOpt l (pushOpt r rest)
  have h2 := stackSize_pushOpt r rest
  simp only [stackSize]
  omega

/-- The eager traversal performed by `<BinaryTree as IntoIterator>::into_iter`
(the owning iterator): the list of values it will yield, in order. -/
def intoIterList {α : Type} (t : BinaryTree α) : List α :=
  toListGo (pushOpt t.root [])

/-- The eager traversal performed by `<&BinaryTree as IntoIterator>::into_iter`
(the borrowing iterator): the list of values it will yield, in order.  The
Rust source duplicates the algorithm of the owning variant on `&Node`
references; the embedding erases the borrow. -/
def iterList {α : Type} (t : BinaryTree α) : List α :=
  toListGo (pushOpt t.root [])

/-- The `Iter` struct backing the borrowing iterator: the pre-computed value
vector and the cursor. -/
structure Iter (α : Type) where
  vec : List α
  index : Nat
deriving DecidableEq

/-- `BinaryTree::iter`. -/
def BinaryTree.iter {α : Type} (t : BinaryTree α) : Iter α :=
  ⟨iterList t, 0⟩

/-- `<Iter as Iterator>::next`: bounds-check `self.vec.get(self.index)`, and
only when it returns `Some` evaluate the unchecked `self.vec[self.index]`
(embedded as `List.get`, whose in-bounds obligation is discharged from the
check); then advance the cursor unconditionally. -/
def Iter.next {α : Type} (it : Iter α) : Option α × Iter α :=
  let val : Option α :=
    match h : it.vec.get? it.index with
    | some _ =>
      some (it.vec.get ⟨it.index, by
        by_contra hc
        rw [List.get?_eq_none.mpr (Nat.le_of_not_lt hc)] at h
        exact Option.noConfusion h⟩)
    | none => none
  (val, ⟨it.vec, it.index + 1⟩)

/-- `partial_cmp` of a totally ordered type: every comparison is defined and
agrees with the total order. -/
def cmpL {α : Type} [LinearOrder α] (a b : α) : Option Ordering :=
  some (compare a b)

/-- `insert` specialised to a total order, where no panic can occur: the
successful result of `BinaryTree.insert cmpL`. -/
def insertL {α : Type} [LinearOrder α] (t : BinaryTree α) (v : α) :
    BinaryTree α :=
  match BinaryTree.insert cmpL t v with
  | .ok t2 => t2
  | .error t2 => t2

/-- `BinaryTree::from(vec)` / `from_iter`: insert every element in order into
a fresh tree. -/
def buildTree {α : Type} [LinearOrder α] (vs : List α) : BinaryTree α :=
  vs.foldl insertL BinaryTree.new

/-- `v` is incomparable (under `cmp`) with some node value on the search path
that both `insert` and `contains` walk for `v`: the comparison sequence of
the two walks is identical, so one predicate serves both. -/
def incompOnPath {α : Type} (cmp : α → α → Option Ordering) (v : α) :
    NTree α → Bool
  | .nil => false
  | .node x l r =>
    match cmp v x with
    | none => true
    | some .eq => false
    | some .lt => incompOnPath cmp v l
    | some .gt => incompOnPath cmp v r

/-- Textbook functional BST insertion; proved below to be what the imperative
walk of `BinaryTree::insert` computes on the root under a total order. -/
def bstInsert {α : Type} [LinearOrder α] (v : α) : NTree α → NTree α
  | .nil => .node v .nil .nil
  | .node x l r =>
    match compare v x with
    | .eq => .node x l r
    | .lt => .node x (bstInsert v l) r
    | .gt => .node x l (bstInsert v r)

/-- Fuel-indexed variant of `insertGo`, used to state that the insertion walk
terminates: each loop iteration consumes one unit of fuel, and `none` means
the fuel ran out before the walk finished. -/
def insertGoF {α : Type} (cmp : α → α → Option Ordering) (v : α) :
    Nat → NTree α → Nat → Option (InsRes α)
  | 0, _, _ => none
  | _ + 1, .nil, _ => some .dup
  | _ + 1, .node x .nil .nil, lvl =>
    match cmp v x with
    | none => some (.panic (.node x .nil .nil))
    | some .eq => some .dup
    | some .lt => some (.attached (.node x (.node v .nil .nil) .nil) lvl)
    | some .gt => some (.attached (.node x .nil (.node v .nil .nil)) lvl)
  | fuel + 1, .node x .nil (.node rx rl rr), lvl =>
    match cmp v x with
    | none => some (.panic (.node x .nil (.node rx rl rr)))
    | some .eq => some .dup
    | some .lt =>
      some (.attached (.node x (.node v .nil .nil) (.node rx rl rr)) lvl)
    | some .gt =>
      match insertGoF cmp v fuel (.node rx rl rr) (lvl + 1) with
      | none => none
      | some (.panic s) => some (.panic (.node x .nil s))
      | some .dup => some .dup
      | some (.attached s lvl2) => some (.attached (.node x .nil s) lvl2)
  | fuel + 1, .node x (.node lx ll lr) .nil, lvl =>
    match cmp v x with
    | none => some (.panic (.node x (.node lx ll lr) .nil))
    | some .eq => some .dup
    | some .lt =>
      match insertGoF cmp v fuel (.node lx ll lr) (lvl + 1) with
      | none => none
      | some (.panic s) => some (.panic (.node x s .nil))
      | some .dup => some .dup
      | some (.attached s lvl2) => some (.attached (.node x s .nil) lvl2)
    | some .gt =>
      some (.attached (.node x (.node lx ll lr) (.node v .nil .nil)) lvl)
  | fuel + 1, .node x (.node lx ll lr) (.node rx rl rr), lvl =>
    match cmp v x with
    | none => some (.panic (.node x (.node lx ll lr) (.node rx rl rr)))
    | some .eq => some .dup
    | some .lt =>
      match insertGoF cmp v fuel (.node lx ll lr) (lvl + 1) with
      | none => none
      | some (.panic s) => some (.panic (.node x s (.node rx rl rr)))
      | some .dup => some .dup
      | some (.attached s lvl2) =>
        some (.attached (.node x s (.node rx rl rr)) lvl2)
    | some .gt =>
      match insertGoF cmp v fuel (.node rx rl rr) (lvl + 1) with
      | none => none
      | some (.panic s) => some (.panic (.node x (.node lx ll lr) s))
      | some .dup => some .dup
      | some (.attached s lvl2) =>
        some (.attached (.node x (.node lx ll lr) s) lvl2)

/-- A NaN-like comparison at a unit type: nothing is comparable.  A legal
`PartialOrd` implementation in the sense of the source's generic bound. -/
def cmpNone : Unit → Unit → Option Ordering := fun _ _ => none

/-- A comparison on `ℤ` where the value `9` behaves like a NaN: comparisons
involving `9` are undefined, all others follow the usual order. -/
def cmpNan : ℤ → ℤ → Option Ordering := fun a b =>
  if a = 9 ∨ b = 9 then none else some (compare a b)

theorem NTree.every_iff {α : Type} (p : α → Prop) (n : NTree α) :
    n.Every p ↔ ∀ y ∈ n.preorder, p y := by
  induction n with
  | nil => simp [NTree.Every, NTree.preorder]
  | node x l r ihl ihr =>
    simp only [NTree.Every, NTree.preorder, List.mem_cons, List.mem_append,
      ihl, ihr]
    constructor
    · rintro ⟨hx, hl, hr⟩ y (rfl | hy | hy)
      · exact hx
      · exact hl y hy
      · exact hr y hy
    · intro h
      exact ⟨h x (Or.inl rfl), fun y hy => h y (Or.inr (Or.inl hy)),
        fun y hy => h y (Or.inr (Or.inr hy))⟩

theorem NTree.length_preorder {α : Type} (n : NTree α) :
    n.preorder.length = n.size := by
  induction n with
  | nil => simp [NTree.preorder, NTree.size]
  | node x l r ihl ihr =>
    simp [NTree.preorder, NTree.size, ihl, ihr]
    omega

theorem NTree.nodup_preorder {α : Type} [LinearOrder α] (n : NTree α)
    (h : n.Ordered) : n.preorder.Nodup := by
  induction n with
  | nil => simp [NTree.preorder]
  | node x l r ihl ihr =>
    obtain ⟨hl, hr, hol, hor⟩ := h
    rw [NTree.every_iff] at hl hr
    simp only [NTree.preorder, List.nodup_cons, List.mem_append,
      List.nodup_append]
    refine ⟨?_, ihl hol, ihr hor, ?_⟩
    · rintro (hx | hx)
      · exact absurd (hl x hx) (lt_irrefl x)
      · exact absurd (hr x hx) (lt_irrefl x)
    · intro y hy hyr
      exact absurd (lt_trans (hl y hy) (hr y hyr)) (lt_irrefl y)

theorem bstInsert_ne_nil {α : Type} [LinearOrder α] (v : α) (n : NTree α) :
    bstInsert v n ≠ .nil := by
  cases n with
  | nil => simp [bstInsert]
  | node x l r => cases h : compare v x <;> simp [bstInsert, h]

theorem mem_bstInsert {α : Type} [LinearOrder α] (v w : α) (n : NTree α) :
    w ∈ (bstInsert v n).preorder ↔ w = v ∨ w ∈ n.preorder := by
  induction n with
  | nil => simp [bstInsert, NTree.preorder]
  | node x l r ihl ihr =>
    rcases h : compare v x with hlt | heq | hgt
    · simp only [bstInsert, h, NTree.preorder, List.mem_cons, List.mem_append,
        ihl]
      tauto
    · have : v = x := by
        have := compare_eq_iff_eq.mp h
        exact this
      subst this
      simp only [bstInsert, h, NTree.preorder, List.mem_cons, List.mem_append]
      tauto
    · simp only [bstInsert, h, NTree.preorder, List.mem_cons, List.mem_append,
        ihr]
      tauto

theorem every_bstInsert {α : Type} [LinearOrder α] (p : α → Prop) (v : α)
    (n : NTree α) (hn : n.Every p) (hv : p v) : (bstInsert v n).Every p := by
  induction n with
  | nil => simpa [bstInsert, NTree.Every] using hv
  | node x l r ihl ihr =>
    obtain ⟨hx, hl, hr⟩ := hn
    cases h : compare v x <;>
      simp [bstInsert, h, NTree.Every, hx, hl, hr, ihl hl, ihr hr]

theorem ordered_bstInsert {α : Type} [LinearOrder α] (v : α) (n : NTree α)
    (h : n.Ordered) : (bstInsert v n).Ordered := by
  induction n with
  | nil => simp [bstInsert, NTree.Ordered, NTree.Every]
  | node x l r ihl ihr =>
    obtain ⟨hl, hr, hol, hor⟩ := h
    rcases hc : compare v x with hlt | heq | hgt
    · have hvx : v < x := compare_lt_iff_lt.mp hc
      simp only [bstInsert, hc, NTree.Ordered]
      exact ⟨every_bstInsert _ v l hl hvx, hr, ihl hol, hor⟩
    · simp only [bstInsert, hc, NTree.Ordered]
      exact ⟨hl, hr, hol, hor⟩
    · have hxv : x < v := compare_gt_iff_gt.mp hc
      simp only [bstInsert, hc, NTree.Ordered]
      exact ⟨hl, every_bstInsert _ v r hr hxv, hol, ihr hor⟩

theorem bstInsert_of_mem {α : Type} [LinearOrder α] (v : α) (n : NTree α)
    (ho : n.Ordered) (hv : v ∈ n.preorder) : bstInsert v n = n := by
  induction n with
  | nil => simp [NTree.preorder] at hv
  | node x l r ihl ihr =>
    obtain ⟨hl, hr, hol, hor⟩ := ho
    rw [NTree.every_iff] at hl hr
    rcases hc : compare v x with hlt | heq | hgt
    · have hvx : v < x := compare_lt_iff_lt.mp hc
      have hvl : v ∈ l.preorder := by
        simp only [NTree.preorder, List.mem_cons, List.mem_append] at hv
        rcases hv with rfl | hv | hv
        · exact absurd hvx (lt_irrefl v)
        · exact hv
        · exact absurd (lt_trans hvx (hr v hv)) (lt_irrefl v)
      simp [bstInsert, hc, ihl hol hvl]
    · simp [bstInsert, hc]
    · have hxv : x < v := compare_gt_iff_gt.mp hc
      have hvr : v ∈ r.preorder := by
        simp only [NTree.preorder, List.mem_cons, List.mem_append] at hv
        rcases hv with rfl | hv | hv
        · exact absurd hxv (lt_irrefl v)
        · exact absurd (lt_trans (hl v hv) hxv) (lt_irrefl v)
        · exact hv
      simp [bstInsert, hc, ihr hor hvr]

theorem size_bstInsert_of_not_mem {α : Type} [LinearOrder α] (v : α)
    (n : NTree α) (hv : v ∉ n.preorder) :
    (bstInsert v n).size = n.size + 1 := by
  induction n with
  | nil => simp [bstInsert, NTree.size]
  | node x l r ihl ihr =>
    simp only [NTree.preorder, List.mem_cons, List.mem_append, not_or] at hv
    obtain ⟨hvx, hvl, hvr⟩ := hv
    rcases hc : compare v x with hlt | heq | hgt
    · simp only [bstInsert, hc, NTree.size, ihl hvl]
      omega
    · exact absurd (compare_eq_iff_eq.mp hc) hvx
    · simp only [bstInsert, hc, NTree.size, ihr hvr]
      omega

theorem bstInsert_idem {α : Type} [LinearOrder α] (v : α) (n : NTree α) :
    bstInsert v (bstInsert v n) = bstInsert v n := by
  induction n with
  | nil =>
    simp [bstInsert, compare_eq_iff_eq.mpr rfl]
  | node x l r ihl ihr =>
    rcases hc : compare v x with hlt | heq | hgt <;>
      simp [bstInsert, hc, ihl, ihr]

theorem bstInsert_eq_lt {α : Type} [LinearOrder α] {v x : α}
    (l r : NTree α) (h : compare v x = .lt) :
    bstInsert v (.node x l r) = .node x (bstInsert v l) r := by
  simp [bstInsert, h]

theorem bstInsert_eq_eq {α : Type} [LinearOrder α] {v x : α}
    (l r : NTree α) (h : compare v x = .eq) :
    bstInsert v (.node x l r) = .node x l r := by
  simp [bstInsert, h]

theorem bstInsert_eq_gt {α : Type} [LinearOrder α] {v x : α}
    (l r : NTree α) (h : compare v x = .gt) :
    bstInsert v (.node x l r) = .node x l (bstInsert v r) := by
  simp [bstInsert, h]

/-- Master correspondence for the insertion walk under a total order: on a
non-empty subtree it either reports a duplicate (and then `bstInsert` is the
identity on that subtree) or attaches one new leaf, computing exactly
`bstInsert` and recording an attach level ≥ the entry level that determines
the new height. -/
theorem insertGo_spec {α : Type} [LinearOrder α] (v : α) (n : NTree α) :
    ∀ lvl : Nat, n = .nil ∨
      (insertGo cmpL v n lvl = .dup ∧ bstInsert v n = n) ∨
      (∃ lvl2, insertGo cmpL v n lvl = .attached (bstInsert v n) lvl2 ∧
        lvl ≤ lvl2 ∧
        (bstInsert v n).realHeight = max n.realHeight (lvl2 + 2 - lvl) ∧
        (bstInsert v n).size = n.size + 1) := by
  induction n with
  | nil => exact fun _ => Or.inl rfl
  | node x l r ihl ihr =>
    intro lvl
    cases l with
    | nil =>
      cases r with
      | nil =>
        rcases hc : compare v x with hlt | heq | hgt
        · refine Or.inr (Or.inr ⟨lvl, ?_, le_refl lvl, ?_, ?_⟩) <;>
            simp [insertGo, cmpL, hc, bstInsert, NTree.realHeight,
              NTree.size] <;> omega
        · exact Or.inr (Or.inl (by simp [insertGo, cmpL, hc, bstInsert]))
        · refine Or.inr (Or.inr ⟨lvl, ?_, le_refl lvl, ?_, ?_⟩) <;>
            simp [insertGo, cmpL, hc, bstInsert, NTree.realHeight,
              NTree.size] <;> omega
      | node rx rl rr =>
        rcases hc : compare v x with hlt | heq | hgt
        · refine Or.inr (Or.inr ⟨lvl, ?_, le_refl lvl, ?_, ?_⟩) <;>
            simp [insertGo, cmpL, hc, bstInsert, NTree.realHeight,
              NTree.size] <;> omega
        · exact Or.inr (Or.inl (by simp [insertGo, cmpL, hc, bstInsert]))
        · rcases ihr (lvl + 1) with hnil | ⟨hdup, hb⟩ |
            ⟨lvl2, heq2, hle, hh, hs⟩
          · exact (NTree.noConfusion hnil)
          · exact Or.inr (Or.inl
              ⟨by simp [insertGo, cmpL, hc, hdup],
               by rw [bstInsert_eq_gt _ _ hc, hb]⟩)
          · refine Or.inr (Or.inr ⟨lvl2, ?_, by omega, ?_, ?_⟩)
            · rw [bstInsert_eq_gt _ _ hc]
              simp [insertGo, cmpL, hc, heq2]
            · rw [bstInsert_eq_gt _ _ hc]
              simp only [NTree.realHeight, hh]
              omega
            · rw [bstInsert_eq_gt _ _ hc]
              simp only [NTree.size, hs]
              omega
    | node lx ll lr =>
      cases r with
      | nil =>
        rcases hc : compare v x with hlt | heq | hgt
        · rcases ihl (lvl + 1) with hnil | ⟨hdup, hb⟩ |
            ⟨lvl2, heq2, hle, hh, hs⟩
          · exact (NTree.noConfusion hnil)
          · exact Or.inr (Or.inl
              ⟨by simp [insertGo, cmpL, hc, hdup],
               by rw [bstInsert_eq_lt _ _ hc, hb]⟩)
          · refine Or.inr (Or.inr ⟨lvl2, ?_, by omega, ?_, ?_⟩)
            · rw [bstInsert_eq_lt _ _ hc]
              simp [insertGo, cmpL, hc, heq2]
            · rw [bstInsert_eq_lt _ _ hc]
              simp only [NTree.realHeight, hh]
              omega
            · rw [bstInsert_eq_lt _ _ hc]
              simp only [NTree.size, hs]
              omega
        · exact Or.inr (Or.inl (by simp [insertGo, cmpL, hc, bstInsert]))
        · refine Or.inr (Or.inr ⟨lvl, ?_, le_refl lvl, ?_, ?_⟩) <;>
            simp [insertGo, cmpL, hc, bstInsert, NTree.realHeight,
              NTree.size] <;> omega
      | node rx rl rr =>
        rcases hc : compare v x with hlt | heq | hgt
        · rcases ihl (lvl + 1) with hnil | ⟨hdup, hb⟩ |
            ⟨lvl2, heq2, hle, hh, hs⟩
          · exact (NTree.noConfusion hnil)
          · exact Or.inr (Or.inl
              ⟨by simp [insertGo, cmpL, hc, hdup],
               by rw [bstInsert_eq_lt _ _ hc, hb]⟩)
          · refine Or.inr (Or.inr ⟨lvl2, ?_, by omega, ?_, ?_⟩)
            · rw [bstInsert_eq_lt _ _ hc]
              simp [insertGo, cmpL, hc, heq2]
            · rw [bstInsert_eq_lt _ _ hc]
              simp only [NTree.realHeight, hh]
              omega
            · rw [bstInsert_eq_lt _ _ hc]
              simp only [NTree.size, hs]
              omega
        · exact Or.inr (Or.inl (by simp [insertGo, cmpL, hc, bstInsert]))
        · rcases ihr (lvl + 1) with hnil | ⟨hdup, hb⟩ |
            ⟨lvl2, heq2, hle, hh, hs⟩
          · exact (NTree.noConfusion hnil)
          · exact Or.inr (Or.inl
              ⟨by simp [insertGo, cmpL, hc, hdup],
               by rw [bstInsert_eq_gt _ _ hc, hb]⟩)
          · refine Or.inr (Or.inr ⟨lvl2, ?_, by omega, ?_, ?_⟩)
            · rw [bstInsert_eq_gt _ _ hc]
              simp [insertGo, cmpL, hc, heq2]
            · rw [bstInsert_eq_gt _ _ hc]
              simp only [NTree.realHeight, hh]
              omega
            · rw [bstInsert_eq_gt _ _ hc]
              simp only [NTree.size, hs]
              omega

/-- Under a total order `insert` never panics: it returns `insertL`, whose
root is `bstInsert` of the old root, and whose `count`/`height` bookkeeping
agrees with the true size/height when it did before. -/
theorem insertL_spec {α : Type} [LinearOrder α] (t : BinaryTree α) (v : α) :
    BinaryTree.insert cmpL t v = .ok (insertL t v) ∧
    (insertL t v).root = bstInsert v t.root ∧
    (t.count = t.root.size → (insertL t v).count = (bstInsert v t.root).size) ∧
    (t.height = t.root.realHeight →
      (insertL t v).height = (bstInsert v t.root).realHeight) := by
  obtain ⟨root, c, h⟩ := t
  cases root with
  | nil =>
    refine ⟨?_, ?_, ?_, ?_⟩ <;>
      simp [BinaryTree.insert, insertL, cmpL, bstInsert, NTree.size,
        NTree.realHeight]
  | node x l r =>
    rcases insertGo_spec v (.node x l r) 2 with hnil | ⟨hdup, hb⟩ |
      ⟨lvl2, heq2, hle, hh, hs⟩
    · exact (NTree.noConfusion hnil)
    · have hins : BinaryTree.insert cmpL ⟨.node x l r, c, h⟩ v
          = .ok ⟨.node x l r, c, h⟩ := by
        simp [BinaryTree.insert, hdup]
      have hL : insertL ⟨.node x l r, c, h⟩ v = ⟨.node x l r, c, h⟩ := by
        simp [insertL, hins]
      refine ⟨by rw [hins, hL], ?_, ?_, ?_⟩ <;> simp [hL, hb]
    · have hins : BinaryTree.insert cmpL ⟨.node x l r, c, h⟩ v
          = .ok ⟨bstInsert v (.node x l r), c + 1, max h lvl2⟩ := by
        simp [BinaryTree.insert, heq2]
      have hL : insertL ⟨.node x l r, c, h⟩ v
          = ⟨bstInsert v (.node x l r), c + 1, max h lvl2⟩ := by
        simp [insertL, hins]
      refine ⟨by rw [hins, hL], by simp [hL], ?_, ?_⟩
      · intro hcount
        simp only [hL, hs]
        simp at hcount
        omega
      · intro hheight
        simp only [hL, hh]
        simp at hheight
        rw [hheight]
        omega

/-- The representation invariant the container maintains: a BST-ordered
root, and `count`/`height` caching the true node count and height. -/
def Inv {α : Type} [LinearOrder α] (t : BinaryTree α) : Prop :=
  t.root.Ordered ∧ t.count = t.root.size ∧ t.height = t.root.realHeight

theorem inv_new {α : Type} [LinearOrder α] :
    Inv (BinaryTree.new : BinaryTree α) := by
  refine ⟨trivial, rfl, rfl⟩

theorem inv_insertL {α : Type} [LinearOrder α] (t : BinaryTree α) (v : α)
    (h : Inv t) : Inv (insertL t v) := by
  obtain ⟨ho, hc, hh⟩ := h
  obtain ⟨hok, hroot, hcount, hheight⟩ := insertL_spec t v
  refine ⟨?_, ?_, ?_⟩
  · rw [hroot]
    exact ordered_bstInsert v t.root ho
  · rw [hroot]
    exact hcount hc
  · rw [hroot]
    exact hheight hh

theorem foldl_insertL_inv {α : Type} [LinearOrder α] (vs : List α) :
    ∀ t : BinaryTree α, Inv t → Inv (vs.foldl insertL t) := by
  induction vs with
  | nil => exact fun t h => h
  | cons v vs ih =>
    intro t h
    rw [List.foldl_cons]
    exact ih _ (inv_insertL t v h)

theorem buildTree_inv {α : Type} [LinearOrder α] (vs : List α) :
    Inv (buildTree vs) :=
  foldl_insertL_inv vs _ inv_new

theorem mem_insertL {α : Type} [LinearOrder α] (t : BinaryTree α) (v w : α) :
    w ∈ (insertL t v).root.preorder ↔ w = v ∨ w ∈ t.root.preorder := by
  rw [(insertL_spec t v).2.1]
  exact mem_bstInsert v w t.root

theorem mem_foldl_insertL {α : Type} [LinearOrder α] (vs : List α) :
    ∀ (t : BinaryTree α) (w : α),
      w ∈ (vs.foldl insertL t).root.preorder ↔
        w ∈ t.root.preorder ∨ w ∈ vs := by
  induction vs with
  | nil => simp
  | cons v vs ih =>
    intro t w
    rw [List.foldl_cons, ih, mem_insertL]
    simp only [List.mem_cons]
    tauto

theorem mem_buildTree {α : Type} [LinearOrder α] (vs : List α) (w : α) :
    w ∈ (buildTree vs).root.preorder ↔ w ∈ vs := by
  rw [buildTree, mem_foldl_insertL]
  simp [BinaryTree.new, NTree.preorder]

theorem buildTree_count {α : Type} [LinearOrder α] (vs : List α) :
    (buildTree vs).count = vs.toFinset.card := by
  have hinv := buildTree_inv vs
  have hnodup := NTree.nodup_preorder _ hinv.1
  have hset : (buildTree vs).root.preorder.toFinset = vs.toFinset := by
    ext w
    simp [List.mem_toFinset, mem_buildTree]
  calc (buildTree vs).count
      = (buildTree vs).root.size := hinv.2.1
    _ = (buildTree vs).root.preorder.length :=
        (NTree.length_preorder (buildTree vs).root).symm
    _ = (buildTree vs).root.preorder.toFinset.card :=
        (List.toFinset_card_of_nodup hnodup).symm
    _ = vs.toFinset.card := by rw [hset]

/-- Classic BST search is exact on ordered subtrees: under `cmpL` the walk
never panics, and answers `true` exactly for stored values. -/
theorem containsGo_cmpL {α : Type} [LinearOrder α] (x : α) (n : NTree α)
    (ho : n.Ordered) :
    (containsGo cmpL x n = some true ↔ x ∈ n.preorder) ∧
      containsGo cmpL x n ≠ none := by
  induction n with
  | nil => simp [containsGo, NTree.preorder]
  | node y l r ihl ihr =>
    obtain ⟨hl, hr, hol, hor⟩ := ho
    rw [NTree.every_iff] at hl hr
    rcases hc : compare x y with hlt | heq | hgt
    · have hxy : x < y := compare_lt_iff_lt.mp hc
      have hmem : x ∈ (NTree.node y l r).preorder ↔ x ∈ l.preorder := by
        simp only [NTree.preorder, List.mem_cons, List.mem_append]
        constructor
        · rintro (rfl | hx | hx)
          · exact absurd hxy (lt_irrefl x)
          · exact hx
          · exact absurd (lt_trans hxy (hr x hx)) (lt_irrefl x)
        · exact fun hx => Or.inr (Or.inl hx)
      have hred : containsGo cmpL x (.node y l r) = containsGo cmpL x l := by
        simp [containsGo, cmpL, hc]
      rw [hred, hmem]
      exact ihl hol
    · have hxy : x = y := compare_eq_iff_eq.mp hc
      subst hxy
      simp [containsGo, cmpL, hc, NTree.preorder]
    · have hyx : y < x := compare_gt_iff_gt.mp hc
      have hmem : x ∈ (NTree.node y l r).preorder ↔ x ∈ r.preorder := by
        simp only [NTree.preorder, List.mem_cons, List.mem_append]
        constructor
        · rintro (rfl | hx | hx)
          · exact absurd hyx (lt_irrefl x)
          · exact absurd (lt_trans (hl x hx) hyx) (lt_irrefl x)
          · exact hx
        · exact fun hx => Or.inr (Or.inr hx)
      have hred : containsGo cmpL x (.node y l r) = containsGo cmpL x r := by
        simp [containsGo, cmpL, hc]
      rw [hred, hmem]
      exact ihr hor

/-- Following left children from a node with value `x` and left subtree `l`
reaches the least value of that node's subtree. -/
theorem minGo_spec {α : Type} [LinearOrder α] :
    ∀ (l : NTree α) (x : α), l.Ordered → l.Every (fun y => y < x) →
      (minGo x l = x ∨ minGo x l ∈ l.preorder) ∧ minGo x l ≤ x ∧
        ∀ w ∈ l.preorder, minGo x l ≤ w := by
  intro l
  induction l with
  | nil =>
    intro x _ _
    exact ⟨Or.inl rfl, le_refl x, by simp [NTree.preorder]⟩
  | node lx ll lr ihl ihr =>
    intro x ho he
    obtain ⟨hll, hlr, holl, holr⟩ := ho
    obtain ⟨hlx, hel, her⟩ := he
    obtain ⟨hmem, hle, hbound⟩ := ihl lx holl hll
    have hstep : minGo x (.node lx ll lr) = minGo lx ll := by
      simp [minGo]
    rw [NTree.every_iff] at hlr
    refine ⟨?_, ?_, ?_⟩
    · rw [hstep]
      simp only [NTree.preorder, List.mem_cons, List.mem_append]
      rcases hmem with h | h
      · exact Or.inr (Or.inl h)
      · exact Or.inr (Or.inr (Or.inl h))
    · rw [hstep]
      exact le_of_lt (lt_of_le_of_lt hle hlx)
    · rw [hstep]
      intro w hw
      simp only [NTree.preorder, List.mem_cons, List.mem_append] at hw
      rcases hw with rfl | hw | hw
      · exact hle
      · exact hbound w hw
      · exact le_of_lt (lt_of_le_of_lt hle (hlr w hw))

/-- Following right children from a node with value `x` and right subtree `r`
reaches the greatest value of that node's subtree. -/
theorem maxGo_spec {α : Type} [LinearOrder α] :
    ∀ (r : NTree α) (x : α), r.Ordered → r.Every (fun y => x < y) →
      (maxGo x r = x ∨ maxGo x r ∈ r.preorder) ∧ x ≤ maxGo x r ∧
        ∀ w ∈ r.preorder, w ≤ maxGo x r := by
  intro r
  induction r with
  | nil =>
    intro x _ _
    exact ⟨Or.inl rfl, le_refl x, by simp [NTree.preorder]⟩
  | node rx rl rr ihl ihr =>
    intro x ho he
    obtain ⟨hrl, hrr, horl, horr⟩ := ho
    obtain ⟨hrx, hel, her⟩ := he
    obtain ⟨hmem, hle, hbound⟩ := ihr rx horr hrr
    have hstep : maxGo x (.node rx rl rr) = maxGo rx rr := by
      simp [maxGo]
    rw [NTree.every_iff] at hrl
    refine ⟨?_, ?_, ?_⟩
    · rw [hstep]
      simp only [NTree.preorder, List.mem_cons, List.mem_append]
      rcases hmem with h | h
      · exact Or.inr (Or.inl h)
      · exact Or.inr (Or.inr (Or.inr h))
    · rw [hstep]
      exact le_of_lt (lt_of_lt_of_le hrx hle)
    · rw [hstep]
      intro w hw
      simp only [NTree.preorder, List.mem_cons, List.mem_append] at hw
      rcases hw with rfl | hw | hw
      · exact hle
      · exact le_of_lt (lt_of_lt_of_le (hrl w hw) hle)
      · exact hbound w hw

/-- If `v` is incomparable with a value on its search path, the insertion
walk raises the panic at that point, and the subtree it hands back is
exactly the subtree it started from: no node was attached. -/
theorem insertGo_incomp {α : Type} (cmp : α → α → Option Ordering) (v : α) :
    ∀ (n : NTree α) (lvl : Nat), incompOnPath cmp v n = true →
      insertGo cmp v n lvl = .panic n := by
  intro n
  induction n with
  | nil => intro lvl h; simp [incompOnPath] at h
  | node x l r ihl ihr =>
    intro lvl h
    cases l with
    | nil =>
      cases r with
      | nil =>
        rcases hc : cmp v x with _ | o
        · simp [insertGo, hc]
        · cases o <;> simp [incompOnPath, hc] at h
      | node rx rl rr =>
        rcases hc : cmp v x with _ | o
        · simp [insertGo, hc]
        · cases o with
          | lt => simp [incompOnPath, hc] at h
          | eq => simp [incompOnPath, hc] at h
          | gt =>
            simp only [incompOnPath, hc] at h
            simp [insertGo, hc, ihr (lvl + 1) h]
    | node lx ll lr =>
      cases r with
      | nil =>
        rcases hc : cmp v x with _ | o
        · simp [insertGo, hc]
        · cases o with
          | lt =>
            simp only [incompOnPath, hc] at h
            simp [insertGo, hc, ihl (lvl + 1) h]
          | eq => simp [incompOnPath, hc] at h
          | gt => simp [incompOnPath, hc] at h
      | node rx rl rr =>
        rcases hc : cmp v x with _ | o
        · simp [insertGo, hc]
        · cases o with
          | lt =>
            simp only [incompOnPath, hc] at h
            simp [insertGo, hc, ihl (lvl + 1) h]
          | eq => simp [incompOnPath, hc] at h
          | gt =>
            simp only [incompOnPath, hc] at h
            simp [insertGo, hc, ihr (lvl + 1) h]

/-- If `target` is incomparable with a value on its search path, the search
walk of `contains` raises the panic at that point. -/
theorem containsGo_incomp {α : Type} (cmp : α → α → Option Ordering)
    (target : α) :
    ∀ n : NTree α, incompOnPath cmp target n = true →
      containsGo cmp target n = none := by
  intro n
  induction n with
  | nil => intro h; simp [incompOnPath] at h
  | node x l r ihl ihr =>
    intro h
    rcases hc : cmp target x with _ | o
    · simp [containsGo, hc]
    · cases o with
      | lt =>
        simp only [incompOnPath, hc] at h
        simp [containsGo, hc, ihl h]
      | eq => simp [incompOnPath, hc] at h
      | gt =>
        simp only [incompOnPath, hc] at h
        simp [containsGo, hc, ihr h]

theorem insertL_eq_of_ok {α : Type} [LinearOrder α] {t u : BinaryTree α}
    {v : α} (h : BinaryTree.insert cmpL t v = .ok u) : insertL t v = u := by
  unfold insertL
  rw [h]

theorem insert_root_node {α : Type} (cmp : α → α → Option Ordering)
    (t : BinaryTree α) (v x : α) (l r : NTree α) (hr : t.root = .node x l r) :
    BinaryTree.insert cmp t v =
      match insertGo cmp v (.node x l r) 2 with
      | .panic s => .error ⟨s, t.count, t.height⟩
      | .dup => .ok t
      | .attached s lvl => .ok ⟨s, t.count + 1, max t.height lvl⟩ := by
  unfold BinaryTree.insert
  rw [hr]

/-- Re-inserting the value just inserted is a no-op on the whole container
state (root, `count` and `height` alike). -/
theorem insertL_insertL {α : Type} [LinearOrder α] (t : BinaryTree α)
    (v : α) : insertL (insertL t v) v = insertL t v := by
  have hroot : (insertL t v).root = bstInsert v t.root := (insertL_spec t v).2.1
  cases hr : (insertL t v).root with
  | nil =>
    rw [hroot] at hr
    exact absurd hr (bstInsert_ne_nil v t.root)
  | node x l r =>
    rcases insertGo_spec v (.node x l r) 2 with hnil | ⟨hdup, hb⟩ |
      ⟨lvl2, heq2, hle, hh, hs⟩
    · exact (NTree.noConfusion hnil)
    · have hins : BinaryTree.insert cmpL (insertL t v) v = .ok (insertL t v) := by
        rw [insert_root_node cmpL (insertL t v) v x l r hr, hdup]
      exact insertL_eq_of_ok hins
    · exfalso
      have h1 : bstInsert v (.node x l r) = .node x l r := by
        have h2 : bstInsert v ((insertL t v).root) = (insertL t v).root := by
          rw [hroot, bstInsert_idem]
        rw [hr] at h2
        exact h2
      rw [h1] at hs
      simp [NTree.size] at hs

/-- The preorder listings of all stack entries, in stack order. -/
def flatStack {α : Type} : List (α × NTree α × NTree α) → List α
  | [] => []
  | (x, l, r) :: rest => NTree.preorder (.node x l r) ++ flatStack rest

theorem flatStack_pushOpt {α : Type} (n : NTree α)
    (s : List (α × NTree α × NTree α)) :
    flatStack (pushOpt n s) = n.preorder ++ flatStack s := by
  cases n <;> simp [pushOpt, flatStack, NTree.preorder]

/-- The explicit-stack loop of the two `IntoIterator` impls emits exactly
the concatenated preorders of the stacked subtrees. -/
theorem toListGo_eq_flatStack {α : Type} :
    ∀ (N : Nat) (s : List (α × NTree α × NTree α)), stackSize s ≤ N →
      toListGo s = flatStack s := by
  intro N
  induction N with
  | zero =>
    intro s h
    cases s with
    | nil => simp [toListGo, flatStack]
    | cons p rest =>
      obtain ⟨x, l, r⟩ := p
      simp only [stackSize] at h
      omega
  | succ N ih =>
    intro s h
    cases s with
    | nil => simp [toListGo, flatStack]
    | cons p rest =>
      obtain ⟨x, l, r⟩ := p
      have h1 := stackSize_pushOpt l (pushOpt r rest)
      have h2 := stackSize_pushOpt r rest
      simp only [stackSize] at h
      rw [toListGo, ih (pushOpt l (pushOpt r rest)) (by omega),
        flatStack_pushOpt, flatStack_pushOpt]
      simp [flatStack, NTree.preorder]

theorem intoIterList_eq_preorder {α : Type} (t : BinaryTree α) :
    intoIterList t = t.root.preorder := by
  rw [intoIterList,
    toListGo_eq_flatStack (stackSize (pushOpt t.root [])) _ (le_refl _),
    flatStack_pushOpt]
  simp [flatStack]

theorem iterList_eq_preorder {α : Type} (t : BinaryTree α) :
    iterList t = t.root.preorder := by
  rw [iterList,
    toListGo_eq_flatStack (stackSize (pushOpt t.root [])) _ (le_refl _),
    flatStack_pushOpt]
  simp [flatStack]

/-- With fuel at least the subtree's node count the fuelled walk cannot run
out: every loop step descends into a strict subtree, so the walk needs at
most `size` iterations. -/
theorem insertGoF_spec {α : Type} (cmp : α → α → Option Ordering) (v : α) :
    ∀ (fuel : Nat) (n : NTree α) (lvl : Nat), n.size < fuel →
      insertGoF cmp v fuel n lvl = some (insertGo cmp v n lvl) := by
  intro fuel
  induction fuel with
  | zero => intro n lvl h; exact absurd h (Nat.not_lt_zero _)
  | succ fuel ih =>
    intro n lvl h
    cases n with
    | nil => simp [insertGoF, insertGo]
    | node x l r =>
      cases l with
      | nil =>
        cases r with
        | nil =>
          rcases hc : cmp v x with _ | o
          · simp [insertGoF, insertGo, hc]
          · cases o <;> simp [insertGoF, insertGo, hc]
        | node rx rl rr =>
          rcases hc : cmp v x with _ | o
          · simp [insertGoF, insertGo, hc]
          · cases o with
            | lt => simp [insertGoF, insertGo, hc]
            | eq => simp [insertGoF, insertGo, hc]
            | gt =>
              have hsz : (NTree.node rx rl rr).size < fuel := by
                simp only [NTree.size] at h ⊢
                omega
              have hin := ih (.node rx rl rr) (lvl + 1) hsz
              cases hres : insertGo cmp v (.node rx rl rr) (lvl + 1) <;>
                simp [insertGoF, insertGo, hc, hin, hres]
      | node lx ll lr =>
        cases r with
        | nil =>
          rcases hc : cmp v x with _ | o
          · simp [insertGoF, insertGo, hc]
          · cases o with
            | lt =>
              have hsz : (NTree.node lx ll lr).size < fuel := by
                simp only [NTree.size] at h ⊢
                omega
              have hin := ih (.node lx ll lr) (lvl + 1) hsz
              cases hres : insertGo cmp v (.node lx ll lr) (lvl + 1) <;>
                simp [insertGoF, insertGo, hc, hin, hres]
            | eq => simp [insertGoF, insertGo, hc]
            | gt => simp [insertGoF, insertGo, hc]
        | node rx rl rr =>
          rcases hc : cmp v x with _ | o
          · simp [insertGoF, insertGo, hc]
          · cases o with
            | lt =>
              have hsz : (NTree.node lx ll lr).size < fuel := by
                simp only [NTree.size] at h ⊢
                omega
              have hin := ih (.node lx ll lr) (lvl + 1) hsz
              cases hres : insertGo cmp v (.node lx ll lr) (lvl + 1) <;>
                simp [insertGoF, insertGo, hc, hin, hres]
            | eq => simp [insertGoF, insertGo, hc]
            | gt =>
              have hsz : (NTree.node rx rl rr).size < fuel := by
                simp only [NTree.size] at h ⊢
                omega
              have hin := ih (.node rx rl rr) (lvl + 1) hsz
              cases hres : insertGo cmp v (.node rx rl rr) (lvl + 1) <;>
                simp [insertGoF, insertGo, hc, hin, hres]

/-- `Iter::next` is total: it returns exactly the (checked) element at the
cursor — `none` from exhaustion onwards — and advances the cursor. -/
theorem iter_next_eq {α : Type} (it : Iter α) :
    Iter.next it = (it.vec.get? it.index, ⟨it.vec, it.index + 1⟩) := by
  unfold Iter.next
  dsimp only
  split
  · rename_i a h
    have hb : it.index < it.vec.length := by
      by_contra hc
      rw [List.get?_eq_none.mpr (Nat.le_of_not_lt hc)] at h
      exact Option.noConfusion h
    congr 1
    exact (List.get?_eq_get hb).symm
  · rename_i h
    rw [h]

/-- Claim C1: for every finite sequence of insertions into a tree created by
`new()` (every such point is `buildTree vs` for the prefix `vs` inserted so
far), the tree satisfies the BST ordering — each node's left-subtree values
strictly below and right-subtree values strictly above its own — and
`count()` equals the number of distinct values inserted so far. -/
theorem claim1_bst_invariant_and_count (α : Type) [LinearOrder α]
    (vs : List α) :
    (buildTree vs).root.Ordered ∧ (buildTree vs).count = vs.toFinset.card :=
  ⟨(buildTree_inv vs).1, buildTree_count vs⟩

/-- Claim C2: on a tree built by inserting totally-ordered values,
`contains(target)` answers `true` exactly for inserted values, and the walk
never fails (never panics). -/
theorem claim2_contains_iff_mem (α : Type) [LinearOrder α] (vs : List α)
    (x : α) :
    (BinaryTree.contains cmpL (buildTree vs) x = some true ↔ x ∈ vs) ∧
    BinaryTree.contains cmpL (buildTree vs) x ≠ none := by
  have h := containsGo_cmpL x (buildTree vs).root (buildTree_inv vs).1
  exact ⟨h.1.trans (mem_buildTree vs x), h.2⟩

/-- Claim C3 counterexample: inserting into an empty tree does NOT succeed
unconditionally.  For a value that is incomparable with itself (here the
NaN-like `cmpNone` comparison), the explicit self-comparison
`value.partial_cmp(&value).unwrap()` in the empty-tree arm panics, the root
is never set, and the claimed post-state (that value at the root, count 1)
is not produced. -/
theorem claim3_counterexample :
    BinaryTree.insert cmpNone BinaryTree.new () = .error BinaryTree.new ∧
    (BinaryTree.insert cmpNone BinaryTree.new ()).isOk = false :=
  ⟨rfl, rfl⟩

/-- Claim C3 (amended): for every value whose self-comparison is defined,
inserting it into an empty tree makes it the root with `count = 1` (and
`height = 1`); for a value incomparable with itself the insert panics
instead of setting the root. -/
theorem claim3_insert_empty (α : Type) (cmp : α → α → Option Ordering)
    (v : α) (h : (cmp v v).isSome = true) :
    BinaryTree.insert cmp BinaryTree.new v = .ok ⟨.node v .nil .nil, 1, 1⟩ := by
  cases hc : cmp v v with
  | none => rw [hc] at h; exact Bool.noConfusion h
  | some o => simp [BinaryTree.insert, BinaryTree.new, hc]

theorem claim3_witness :
    BinaryTree.insert cmpL BinaryTree.new (5 : ℤ)
      = .ok ⟨.node 5 .nil .nil, 1, 1⟩ :=
  claim3_insert_empty ℤ cmpL 5 (by decide)

/-- Claim C4: both the owning and the borrowing iterator traverse the tree
in preorder — node, then full left subtree, then full right subtree — so
they yield every stored value exactly once in that order; on the tree built
from `[5,4,6]` both yield exactly `[5,4,6]`. -/
theorem claim4_traversal_preorder :
    (∀ (α : Type) (t : BinaryTree α),
      intoIterList t = t.root.preorder ∧ iterList t = t.root.preorder) ∧
    intoIterList (buildTree ([5, 4, 6] : List ℤ)) = [5, 4, 6] ∧
    iterList (buildTree ([5, 4, 6] : List ℤ)) = [5, 4, 6] := by
  refine ⟨fun α t => ⟨intoIterList_eq_preorder t, iterList_eq_preorder t⟩,
    ?_, ?_⟩
  · rw [intoIterList_eq_preorder]
    decide
  · rw [iterList_eq_preorder]
    decide

/-- Claim C5: on a non-empty tree, a value incomparable with a node value on
its search path makes both `insert` and `contains` abort with a panic, and
the failed insert leaves the tree completely unchanged — same root (no node
attached), same `count`, same `height`. -/
theorem claim5_incomparable_panics (α : Type)
    (cmp : α → α → Option Ordering) (x : α) (l r : NTree α) (c h : Nat)
    (v : α) (hp : incompOnPath cmp v (.node x l r) = true) :
    BinaryTree.insert cmp ⟨.node x l r, c, h⟩ v = .error ⟨.node x l r, c, h⟩ ∧
    BinaryTree.contains cmp ⟨.node x l r, c, h⟩ v = none := by
  constructor
  · rw [insert_root_node cmp ⟨.node x l r, c, h⟩ v x l r rfl,
      insertGo_incomp cmp v (.node x l r) 2 hp]
  · exact containsGo_incomp cmp v (.node x l r) hp

theorem claim5_witness :
    BinaryTree.insert cmpNan ⟨.node 0 .nil .nil, 1, 1⟩ (9 : ℤ)
        = .error ⟨.node 0 .nil .nil, 1, 1⟩ ∧
    BinaryTree.contains cmpNan ⟨.node (0 : ℤ) .nil .nil, 1, 1⟩ 9 = none :=
  claim5_incomparable_panics ℤ cmpNan 0 .nil .nil 1 1 9 (by decide)

/-- Claim C6: inserting an already-present value is a no-op — after
inserting `v` twice, the whole container state (tree shape, `count`, and
`height`) is identical to its state after the first insertion. -/
theorem claim6_duplicate_noop (α : Type) [LinearOrder α] (t : BinaryTree α)
    (v : α) : insertL (insertL t v) v = insertL t v :=
  insertL_insertL t v

/-- Claim C7: after every finite sequence of insertions from `new()`,
`height()` equals the number of nodes on the longest root-to-leaf path;
in particular it is `0` for the empty tree, `1` after one insert, and `3`
after inserting `[2,1,0,3]` in that order. -/
theorem claim7_height_correct :
    (∀ (α : Type) [LinearOrder α] (vs : List α),
      (buildTree vs).height = (buildTree vs).root.realHeight) ∧
    (BinaryTree.new : BinaryTree ℤ).height = 0 ∧
    (buildTree ([5] : List ℤ)).height = 1 ∧
    (buildTree ([2, 1, 0, 3] : List ℤ)).height = 3 := by
  refine ⟨?_, rfl, by decide, by decide⟩
  intro α inst vs
  exact (buildTree_inv vs).2.2

/-- Claim C8: on a non-empty built tree `min()`/`max()` return the least /
greatest stored value (the value reached by following left / right children
until no further child exists); on the empty tree both return nothing; for
`[8,4,6,16,-5,25]`, `min()` is `-5` and `max()` is `25`. -/
theorem claim8_min_max :
    (∀ (α : Type) [LinearOrder α] (vs : List α),
      BinaryTree.min (BinaryTree.new : BinaryTree α) = none ∧
      BinaryTree.max (BinaryTree.new : BinaryTree α) = none ∧
      (vs ≠ [] → ∃ m, (buildTree vs).min = some m ∧ m ∈ vs ∧
        ∀ w ∈ vs, m ≤ w) ∧
      (vs ≠ [] → ∃ m, (buildTree vs).max = some m ∧ m ∈ vs ∧
        ∀ w ∈ vs, w ≤ m)) ∧
    (buildTree ([8, 4, 6, 16, -5, 25] : List ℤ)).min = some (-5) ∧
    (buildTree ([8, 4, 6, 16, -5, 25] : List ℤ)).max = some 25 := by
  refine ⟨?_, by decide, by decide⟩
  intro α inst vs
  have ho := (buildTree_inv vs).1
  refine ⟨rfl, rfl, ?_, ?_⟩
  · intro hne
    obtain ⟨y, hy⟩ := List.exists_mem_of_ne_nil vs hne
    have hy2 : y ∈ (buildTree vs).root.preorder := (mem_buildTree vs y).mpr hy
    cases hr : (buildTree vs).root with
    | nil => rw [hr] at hy2; simp [NTree.preorder] at hy2
    | node x l r =>
      rw [hr] at ho
      obtain ⟨hl, hrr, hol, hor⟩ := ho
      obtain ⟨hmem, hle, hbound⟩ := minGo_spec l x hol hl
      rw [NTree.every_iff] at hrr
      refine ⟨minGo x l, ?_, ?_, ?_⟩
      · simp [BinaryTree.min, hr]
      · apply (mem_buildTree vs _).mp
        rw [hr]
        simp only [NTree.preorder, List.mem_cons, List.mem_append]
        rcases hmem with hm | hm
        · exact Or.inl hm
        · exact Or.inr (Or.inl hm)
      · intro w hw
        have hw2 : w ∈ (buildTree vs).root.preorder :=
          (mem_buildTree vs w).mpr hw
        rw [hr] at hw2
        simp only [NTree.preorder, List.mem_cons, List.mem_append] at hw2
        rcases hw2 with rfl | hw2 | hw2
        · exact hle
        · exact hbound w hw2
        · exact le_of_lt (lt_of_le_of_lt hle (hrr w hw2))
  · intro hne
    obtain ⟨y, hy⟩ := List.exists_mem_of_ne_nil vs hne
    have hy2 : y ∈ (buildTree vs).root.preorder := (mem_buildTree vs y).mpr hy
    cases hr : (buildTree vs).root with
    | nil => rw [hr] at hy2; simp [NTree.preorder] at hy2
    | node x l r =>
      rw [hr] at ho
      obtain ⟨hl, hrr, hol, hor⟩ := ho
      obtain ⟨hmem, hle, hbound⟩ := maxGo_spec r x hor hrr
      rw [NTree.every_iff] at hl
      refine ⟨maxGo x r, ?_, ?_, ?_⟩
      · simp [BinaryTree.max, hr]
      · apply (mem_buildTree vs _).mp
        rw [hr]
        simp only [NTree.preorder, List.mem_cons, List.mem_append]
        rcases hmem with hm | hm
        · exact Or.inl hm
        · exact Or.inr (Or.inr hm)
      · intro w hw
        have hw2 : w ∈ (buildTree vs).root.preorder :=
          (mem_buildTree vs w).mpr hw
        rw [hr] at hw2
        simp only [NTree.preorder, List.mem_cons, List.mem_append] at hw2
        rcases hw2 with rfl | hw2 | hw2
        · exact hle
        · exact le_of_lt (lt_of_lt_of_le (hl w hw2) hle)
        · exact hbound w hw2

theorem claim8_witness :
    ∃ m, (buildTree ([8, 4, 6, 16, -5, 25] : List ℤ)).min = some m ∧
      m ∈ ([8, 4, 6, 16, -5, 25] : List ℤ) ∧
      ∀ w ∈ ([8, 4, 6, 16, -5, 25] : List ℤ), m ≤ w :=
  (claim8_min_max.1 ℤ [8, 4, 6, 16, -5, 25]).2.2.1 (by decide)

/-- Claim C9: the insertion walk terminates on every finite tree: since each
loop step descends into a strict subtree (strictly smaller `size`), a fuel
budget of the subtree's node count is enough for the fuelled walk to reach
the same attach point, duplicate, or panic as the unfuelled one. -/
theorem claim9_insert_terminates (α : Type)
    (cmp : α → α → Option Ordering) (v : α) (n : NTree α) (lvl fuel : Nat)
    (h : n.size < fuel) :
    insertGoF cmp v fuel n lvl = some (insertGo cmp v n lvl) :=
  insertGoF_spec cmp v fuel n lvl h

theorem claim9_witness :
    insertGoF cmpL (5 : ℤ) 2 (.node 5 .nil .nil) 2
      = some (insertGo cmpL 5 (.node 5 .nil .nil) 2) :=
  claim9_insert_terminates ℤ cmpL 5 (.node 5 .nil .nil) 2 2 (by decide)

/-- Claim C10: `Iter::next` is total on every iterator state (in particular
every state reachable from `iter()`, which starts at cursor `0` over the
pre-computed vector): it returns exactly the checked lookup at the cursor —
the unchecked indexing is only evaluated under the successful bounds check —
so it yields the next value while any remain and `none` on every call once
the cursor has passed the end, advancing the cursor each time. -/
theorem claim10_iter_next_total :
    (∀ (α : Type) (it : Iter α),
      Iter.next it = (it.vec.get? it.index, ⟨it.vec, it.index + 1⟩)) ∧
    (∀ (α : Type) (t : BinaryTree α), BinaryTree.iter t = ⟨iterList t, 0⟩) :=
  ⟨fun _ it => iter_next_eq it, fun _ _ => rfl⟩

end DS
